import Mathlib

/-!
Verification development for the `backblaze-b2-upload-any` upload library.

The JavaScript source is shallowly embedded: byte buffers become `List Nat`,
the SHA-1 digest (an external `crypto` primitive) becomes an arbitrary
function parameter `hashB : Bytes → Bytes` that every adapter applies to the
exact byte region the source code hashes, stateful adapters become explicit
state-passing step functions, and the asynchronous control flow of the borrow
engine and worker pool becomes step machines driven by explicit outcome
scripts and schedules.
-/

/-- Byte sequences (JS `Buffer` contents) are lists of naturals. -/
abbrev Bytes := List Nat

/-- Ceiling division, `Math.ceil(a / b)` for naturals (used by every
partitioned adapter to compute the number of parts). -/
def ceilDiv (a b : Nat) : Nat := (a + b - 1) / b

/-- A produced upload part, mirroring the "large-file upload part interface"
of `source-interface/index.js`: a 1-based part `number`, the `hash` the
adapter computed (here: `hashB` applied to the part bytes), and the bytes
that `obtain()` yields. -/
structure PartR where
  number : Nat
  hash : Bytes
  data : Bytes
deriving DecidableEq, Repr

/-- State of `bufferLargeInterface` (and of `fileLargeInterface`): the
`piece` counter captured in the adapter's closure. -/
structure BufSt where
  piece : Nat
deriving DecidableEq, Repr

/-- Total part count of `bufferLargeInterface`:
`Math.ceil(o.data.length / o.partSize)`. -/
def bufferTotal (data : Bytes) (P : Nat) : Nat := ceilDiv data.length P

/-- One `next()` call of `bufferLargeInterface` (unnamed buffer source
interface module, lines 4-37).  `data.subarray(piece*P, (piece+1)*P)` is
`(data.drop (piece*P)).take P` (the subarray end is exclusive and clamped);
the part number is the incremented `piece`. -/
def bufferNext (hashB : Bytes → Bytes) (data : Bytes) (P : Nat) (st : BufSt) :
    Option PartR × BufSt :=
  if bufferTotal data P ≤ st.piece then (none, st)
  else
    let d := (data.drop (st.piece * P)).take P
    (some { number := st.piece + 1, hash := hashB d, data := d }, ⟨st.piece + 1⟩)

/-- One `next()` call of `fileLargeInterface`
(`source-interface/file-source-interface.js`, lines 21-89).  The file's
contents stand in for the path; `getFileSize` is its length.  A part is the
byte range `[start, end)` with `start = piece*P`, `end = min (start+P) size`;
the same range is both hashed and re-opened by `obtain`. -/
def fileNext (hashB : Bytes → Bytes) (contents : Bytes) (P : Nat) (st : BufSt) :
    Option PartR × BufSt :=
  let size := contents.length
  if ceilDiv size P ≤ st.piece then (none, st)
  else
    let start := st.piece * P
    let stop := min (start + P) size
    let d := (contents.drop start).take (stop - start)
    (some { number := st.piece + 1, hash := hashB d, data := d }, ⟨st.piece + 1⟩)

/-- State of `streamLargeInterface`'s partitioner
(`source-interface/stream-source-interface.js`, lines 9-128): the bytes not
yet assembled into a part (the concatenated source: probe buffer plus the
still-open stream, with any overflow unshifted back), the 1-based `piece`
counter, and the `done` flag set when the source ends. -/
structure StreamSt where
  rest : Bytes
  piece : Nat
  done : Bool
deriving DecidableEq, Repr

/-- One `next()` call of `streamLargeInterface`.  The writable assembles
exactly `P` bytes into the part buffer, unshifting any overflow back onto the
source, so a full part is `rest.take P`; if the source ends first the final
undersized part is delivered when nonempty, otherwise `undefined`, and `done`
is set.  Chunk boundaries do not matter because writes copy into the part
buffer at the running offset. -/
def streamNext (hashB : Bytes → Bytes) (P : Nat) (st : StreamSt) :
    Option PartR × StreamSt :=
  if st.done then (none, st)
  else if P ≤ st.rest.length then
    let d := st.rest.take P
    (some { number := st.piece, hash := hashB d, data := d },
     ⟨st.rest.drop P, st.piece + 1, false⟩)
  else if st.rest.length ≠ 0 then
    (some { number := st.piece, hash := hashB st.rest, data := st.rest },
     ⟨[], st.piece + 1, true⟩)
  else (none, ⟨[], st.piece + 1, true⟩)

/-- Drive a partitioned interface by successive `next()` calls, collecting
the yielded parts until `next()` resolves `undefined` (or fuel runs out). -/
def runParts {σ : Type} (next : σ → Option PartR × σ) : Nat → σ → List PartR
  | 0, _ => []
  | fuel + 1, st =>
    match next st with
    | (none, _) => []
    | (some p, st') => p :: runParts next fuel st'

/-- All parts produced by `bufferLargeInterface` from a fresh adapter. -/
def bufferRun (hashB : Bytes → Bytes) (data : Bytes) (P : Nat) : List PartR :=
  runParts (bufferNext hashB data P) (bufferTotal data P) ⟨0⟩

/-- All parts produced by `fileLargeInterface` from a fresh adapter. -/
def fileRun (hashB : Bytes → Bytes) (contents : Bytes) (P : Nat) : List PartR :=
  runParts (fileNext hashB contents P) (ceilDiv contents.length P) ⟨0⟩

/-- All parts produced by `streamLargeInterface`'s partitioner over the full
concatenated byte sequence (probe buffer followed by the live stream). -/
def streamRun (hashB : Bytes → Bytes) (P : Nat) (bytes : Bytes) : List PartR :=
  runParts (streamNext hashB P) (bytes.length + 1) ⟨bytes, 1, false⟩

/-- The two shapes a source interface can take
(`source-interface/index.js`): the standard (Direct) interface with its
reported `size` and the bytes `makeStream` produces, or the large-file
(Partitioned) interface, denoted by the full list of parts its successive
`next()` calls yield. -/
inductive SrcIf
  | direct (size : Nat) (bytes : Bytes)
  | part (parts : List PartR)

/-- Whether the constructed interface is the Direct one (it has `size` and
`makeStream` but no `next`). -/
def SrcIf.isDirect : SrcIf → Bool
  | .direct _ _ => true
  | .part _ => false

/-- The branch `upload` takes in `index.js` line 306:
`si.next ? doLargeUpload(o, si) : doStandardUpload(o, si)`. -/
inductive UploadPath
  | direct
  | partitioned
deriving DecidableEq, Repr

/-- Path selection of `upload` (`index.js` line 306): the Partitioned path is
taken exactly when the interface exposes `next`. -/
def chosenPath : SrcIf → UploadPath
  | .direct _ _ => .direct
  | .part _ => .partitioned

/-- Buffer source interface `module.exports` (unnamed buffer module, lines
39-44): partitioned iff `o.data.length >= o.largeFileThreshold`, else the
Direct interface reporting the buffer's length and streaming its bytes. -/
def bufferSourceInterface (hashB : Bytes → Bytes) (thr P : Nat) (data : Bytes) :
    SrcIf :=
  if thr ≤ data.length then .part (bufferRun hashB data P)
  else .direct data.length data

/-- File source interface `module.exports`
(`file-source-interface.js`, lines 91-96): partitioned iff
`getFileSize(o.data) >= o.largeFileThreshold` (the path names a regular file
whose contents stand in for it here). -/
def fileSourceInterface (hashB : Bytes → Bytes) (thr P : Nat) (contents : Bytes) :
    SrcIf :=
  if thr ≤ contents.length then .part (fileRun hashB contents P)
  else .direct contents.length contents

/-- Result of the stream probe loop
(`stream-source-interface.js`, lines 130-165): the chunks accumulated in
`readBuffer`, `readBufferSize`, the resolved `large` decision, and the chunks
of `o.data` not yet consumed when the probe unpiped. -/
structure ProbeRes where
  readBuffer : List Bytes
  readBufferSize : Nat
  large : Bool
  rest : List Bytes
deriving DecidableEq, Repr

/-- The probe's writable: each `write` pushes the chunk and, once
`readBufferSize >= largeFileThreshold`, resolves `large := true` leaving the
remaining chunks unread; `final` resolves `readBufferSize >= threshold` at
stream end. -/
def probeAux (thr : Nat) (acc : List Bytes) (size : Nat) :
    List Bytes → ProbeRes
  | [] => ⟨acc, size, decide (thr ≤ size), []⟩
  | c :: cs =>
    let size' := size + c.length
    if thr ≤ size' then ⟨acc ++ [c], size', true, cs⟩
    else probeAux thr (acc ++ [c]) size' cs

/-- The probe over a whole chunked stream. -/
def probe (thr : Nat) (chunks : List Bytes) : ProbeRes :=
  probeAux thr [] 0 chunks

/-- Stream source interface `module.exports`
(`stream-source-interface.js`, lines 130-172): probe first; if `large`, build
`streamLargeInterface` over the concatenation of the probed `readBuffer` and
the rest of the stream, else the Direct interface replaying the buffered
chunks with size `readBufferSize`. -/
def streamSourceInterface (hashB : Bytes → Bytes) (thr P : Nat)
    (chunks : List Bytes) : SrcIf :=
  let r := probe thr chunks
  if r.large then
    .part (streamRun hashB P (r.readBuffer.flatten ++ r.rest.flatten))
  else .direct r.readBufferSize r.readBuffer.flatten

/-- Closed form for the parts all three partitioned adapters produce: part
`i` (0-based) of a byte sequence carries number `k + i` and the bytes
`(bytes.drop (i*P)).take P`. -/
def partsFrom (hashB : Bytes → Bytes) (P : Nat) (bytes : Bytes) (k : Nat) :
    List PartR :=
  (List.range (ceilDiv bytes.length P)).map fun i =>
    { number := k + i, hash := hashB ((bytes.drop (i * P)).take P),
      data := (bytes.drop (i * P)).take P }

/-- The properties claim C1 states of a partitioned run over `S` total bytes
with part size `P`: exactly `ceil(S/P)` parts, numbered `1..N` contiguously,
byte lengths summing to `S`, and every part except possibly the last of
length exactly `P`. -/
def partsOk (ps : List PartR) (S P : Nat) : Prop :=
  ps.length = ceilDiv S P ∧
  ps.map (fun p => p.number) = List.range' 1 (ceilDiv S P) ∧
  (ps.map (fun p => p.data.length)).sum = S ∧
  ∀ i, i + 1 < ceilDiv S P → (ps.map (fun p => p.data.length)).get? i = some P

/-- Error codes the borrow engine's classifier inspects (`err.code` values in
`index.js` lines 63-82); every other code behaves like the absent case. -/
inductive ECode
  | ECONNREFUSED
  | ETIMEDOUT
  | ECONNRESET
  | EAI_AGAIN
deriving DecidableEq, Repr

/-- The transport-level facts of a failed request the classifier in
`createBorrowFn` reads: whether `err.config` exists and which URL it names
(URLs are identified with token ids since a token is `{uploadUrl,
authorizationToken}`), `err.response.status`, `err.code`, whether the 400
body's message starts with "more than one upload using auth token", and the
parsed `retry-after` header. -/
structure ErrInfo where
  hasConfig : Bool
  configUrl : Nat
  status : Option Nat
  code : Option ECode
  multiUploadMsg : Bool
  retryAfter : Option Nat
deriving DecidableEq, Repr

/-- Classifier branch `index.js` line 63:
`r.status === 503 || err.code === 'ECONNREFUSED' || err.code === 'ETIMEDOUT'`
(discard the token and retry). -/
def discardClass1 (e : ErrInfo) : Prop :=
  e.status = some 503 ∨ e.code = some ECode.ECONNREFUSED ∨
    e.code = some ECode.ETIMEDOUT

instance (e : ErrInfo) : Decidable (discardClass1 e) := by
  unfold discardClass1; infer_instance

/-- Classifier branch `index.js` line 68: a 400 whose body message starts
with "more than one upload using auth token" (discard and retry). -/
def discardClass2 (e : ErrInfo) : Prop :=
  e.status = some 400 ∧ e.multiUploadMsg = true

instance (e : ErrInfo) : Decidable (discardClass2 e) := by
  unfold discardClass2; infer_instance

/-- Classifier branch `index.js` line 79:
`err.code === 'ECONNRESET' || err.code === 'EAI_AGAIN' || r.status === 500 ||
r.status === 429` (keep the token and retry). -/
def keepClass (e : ErrInfo) : Prop :=
  e.code = some ECode.ECONNRESET ∨ e.code = some ECode.EAI_AGAIN ∨
    e.status = some 500 ∨ e.status = some 429

instance (e : ErrInfo) : Decidable (keepClass e) := by
  unfold keepClass; infer_instance

/-- Outcome the environment assigns to one `workerFn(token)` invocation. -/
inductive Outcome
  | ok (v : Nat)
  | fail (e : ErrInfo)
deriving DecidableEq, Repr

/-- What one `attempt()` throws: a plain error (which `pRetry` retries) or a
`pRetry.AbortError` (which stops retrying at once). -/
inductive Thrown
  | plain (e : ErrInfo)
  | aborted (e : ErrInfo)
deriving DecidableEq, Repr

/-- State of one `createBorrowFn` closure plus instrumentation counters: the
token `queue`, the id the next freshly issued token gets, and counts of
`getTokenFn` calls, `reauth()` calls, discarded tokens, `workerFn`
invocations, the `retry-after` delays awaited, and `pRetry` retries consumed. -/
structure BorrowSt where
  queue : List Nat
  nextTokenId : Nat
  freshCalls : Nat
  reauthCalls : Nat
  discards : Nat
  invocations : Nat
  delays : List Nat
  budgetUsed : Nat
deriving DecidableEq, Repr

/-- `queue.shift() || await getTokenFn()` (`index.js` line 37): dequeue a
token, or obtain a fresh one when the queue is empty. -/
def acquire (st : BorrowSt) : Nat × BorrowSt :=
  match st.queue with
  | t :: rest => (t, { st with queue := rest })
  | [] =>
    (st.nextTokenId,
     { st with nextTokenId := st.nextTokenId + 1,
               freshCalls := st.freshCalls + 1 })

/-- Placeholder error for an exhausted outcome script (never reached by any
theorem below; scripts always cover every invocation). -/
def scriptEnd : ErrInfo := ⟨false, 0, none, none, false, none⟩

/-- One `attempt()` of `createBorrowFn` (`index.js` lines 33-104), driven by
the script of `workerFn` outcomes.  On success the token is requeued and the
result returned.  On failure: an error unrelated to the token's upload URL
requeues the token and forwards the error; a 401 reauthorizes and recurses
without consuming retry budget; otherwise the classifier chooses
retry/discard, a non-discarded token is requeued, a non-retryable error is
thrown as `AbortError`, a `retry-after` header delays and recurses inside
the same `pRetry` try, and otherwise the plain error propagates to `pRetry`. -/
def attempt : List Outcome → BorrowSt → (Except Thrown Nat) × BorrowSt × List Outcome
  | [], st0 => (.error (.aborted scriptEnd), st0, [])
  | outcome :: rest, st0 =>
    let (token, st1) := acquire st0
    let st2 := { st1 with invocations := st1.invocations + 1 }
    match outcome with
    | .ok v => (.ok v, { st2 with queue := st2.queue ++ [token] }, rest)
    | .fail e =>
      if ¬e.hasConfig = true ∨ e.configUrl ≠ token then
        (.error (.plain e), { st2 with queue := st2.queue ++ [token] }, rest)
      else if e.status = some 401 then
        attempt rest { st2 with reauthCalls := st2.reauthCalls + 1 }
      else
        let rd : Bool × Bool :=
          if discardClass1 e then (true, true)
          else if discardClass2 e then (true, true)
          else if keepClass e then (true, false)
          else (false, false)
        let st3 :=
          if rd.2 then { st2 with discards := st2.discards + 1 }
          else { st2 with queue := st2.queue ++ [token] }
        if rd.1 = false then (.error (.aborted e), st3, rest)
        else
          match e.retryAfter with
          | some ra => attempt rest { st3 with delays := st3.delays ++ [ra] }
          | none => (.error (.plain e), st3, rest)

/-- The `pRetry(attempt, { retries: 9 })` loop (`index.js` lines 106-109):
a plain rejection consumes one retry and re-runs `attempt`; an `AbortError`
or an exhausted budget surfaces the underlying error. -/
def pRetryLoop : Nat → List Outcome → BorrowSt → (Except ErrInfo Nat) × BorrowSt
  | 0, script, st =>
    (match attempt script st with
     | (.ok v, st', _) => (.ok v, st')
     | (.error (.aborted e), st', _) => (.error e, st')
     | (.error (.plain e), st', _) => (.error e, st'))
  | r + 1, script, st =>
    (match attempt script st with
     | (.ok v, st', _) => (.ok v, st')
     | (.error (.aborted e), st', _) => (.error e, st')
     | (.error (.plain _), st', rest) =>
       pRetryLoop r rest { st' with budgetUsed := st'.budgetUsed + 1 })

/-- The initial state of one borrow pool. -/
def initSt (queue : List Nat) (nextId : Nat) : BorrowSt :=
  ⟨queue, nextId, 0, 0, 0, 0, [], 0⟩

/-- One whole `borrow` call: `pRetry` with `retries: 9` (10 tries overall)
over the attempt function, starting from the given pool queue. -/
def borrowRun (queue : List Nat) (nextId : Nat) (script : List Outcome) :
    (Except ErrInfo Nat) × BorrowSt :=
  pRetryLoop 9 script (initSt queue nextId)

/-- Worker-pool events for `doLargeUpload` (`index.js` lines 205-292): a
dispatch (a free worker obtains the next part from the adapter and
immediately pushes `doPart(part)`'s promise — whose value is `part.hash` —
onto the `hashes` array) or the completion of some in-flight part upload
(which frees its slot). -/
inductive WEv
  | dispatch
  | complete
deriving DecidableEq, Repr

/-- Worker-pool state: parts the adapter has not yet yielded (its `next()`
calls are serialized, so they come off in adapter order), the `hashes` array
in push order, the `available` counter, and the number of in-flight uploads. -/
structure WPSt where
  pending : List PartR
  hashes : List Bytes
  available : Nat
  inFlight : Nat
deriving DecidableEq, Repr

/-- One scheduler event of the worker pool.  A dispatch needs a free slot and
a remaining part: it decrements `available`, appends the part's hash promise
to `hashes` and marks the upload in flight (when no part remains the code
sets `available = NaN`: no further dispatch happens, modelled as a no-op).
A completion frees a slot (`available += 1`). -/
def wpStep (st : WPSt) : WEv → WPSt
  | .dispatch =>
    if 0 < st.available then
      match st.pending with
      | [] => st
      | p :: rest =>
        { pending := rest, hashes := st.hashes ++ [p.hash],
          available := st.available - 1, inFlight := st.inFlight + 1 }
    else st
  | .complete =>
    if 0 < st.inFlight then
      { st with inFlight := st.inFlight - 1, available := st.available + 1 }
    else st

/-- Run the worker pool under a schedule, from `concurrency` free slots. -/
def wpRun (parts : List PartR) (c : Nat) (sched : List WEv) : WPSt :=
  sched.foldl wpStep ⟨parts, [], c, 0⟩

/-- External calls `doLargeUpload` makes against the session API, in order. -/
inductive BCall
  | startCall
  | finishCall (fid : Nat) (hashes : List Bytes)
  | cancelCall (fid : Nat)
deriving DecidableEq, Repr

/-- Environment for `doLargeUpload` (`index.js` lines 194-297): the outcome
of `startLargeFile`, of the whole part-upload phase (the `partHashes`
promise), of `finishLargeFile` on a given hash array, and of
`cancelLargeFile`. -/
structure LgEnv where
  startRes : Except ErrInfo Nat
  partsRes : Except ErrInfo (List Bytes)
  finishRes : List Bytes → Except ErrInfo Nat
  cancelRes : Nat → Except ErrInfo Unit

/-- The `doLargeUpload` control flow: start a session; on any later failure
`await cancelLargeFile({ fileId })` and rethrow (`index.js` lines 293-296) —
note a failing cancel call replaces the original error, since the `await` in
the catch block itself throws.  Returns the call's result and the trace of
session-API calls made. -/
def doLargeUpload (env : LgEnv) : (Except ErrInfo Nat) × List BCall :=
  match env.startRes with
  | .error e => (.error e, [.startCall])
  | .ok fid =>
    match env.partsRes with
    | .error e =>
      match env.cancelRes fid with
      | .ok _ => (.error e, [.startCall, .cancelCall fid])
      | .error e2 => (.error e2, [.startCall, .cancelCall fid])
    | .ok hs =>
      match env.finishRes hs with
      | .ok r => (.ok r, [.startCall, .finishCall fid hs])
      | .error e =>
        match env.cancelRes fid with
        | .ok _ => (.error e, [.startCall, .finishCall fid hs, .cancelCall fid])
        | .error e2 =>
          (.error e2, [.startCall, .finishCall fid hs, .cancelCall fid])

/-- One call guarded by `sync-promise` (unnamed module, lines 51-76): the
body's total step count and the steps still to run.  The call's returned
promise settles when its last step runs. -/
structure SyncCall where
  total : Nat
  stepsLeft : Nat
deriving DecidableEq, Repr

/-- Readiness under the `syncPromise` chaining: call 0's `prior` is the
initially resolved promise, and call `k+1`'s body is the continuation
`prior.then(() => fn(...))` where `prior = result_k.then(ignore, ignore)` —
so call `k+1` may run a step only once call `k`'s promise has settled
(all its steps have run). -/
def syncReady (calls : List SyncCall) : Nat → Bool
  | 0 => true
  | j + 1 =>
    match calls[j]? with
    | some c => decide (c.stepsLeft = 0)
    | none => false

/-- State of the serialized-calls machine: one record per guarded call and
the trace of body steps run, each entry naming the call that stepped. -/
structure SyncSt where
  calls : List SyncCall
  trace : List Nat
deriving DecidableEq, Repr

/-- The scheduler picks a call to run one step of; the step is valid only if
that call is ready (its predecessor's promise settled) and unfinished. -/
def syncStep (st : SyncSt) (k : Nat) : Option SyncSt :=
  match st.calls[k]? with
  | none => none
  | some c =>
    if syncReady st.calls k = true ∧ 0 < c.stepsLeft then
      some { calls := st.calls.set k { c with stepsLeft := c.stepsLeft - 1 },
             trace := st.trace ++ [k] }
    else none

/-- Run a schedule of chosen steps; an invalid choice aborts the run. -/
def syncRun : List Nat → SyncSt → Option SyncSt
  | [], st => some st
  | k :: ks, st =>
    match syncStep st k with
    | some st' => syncRun ks st'
    | none => none

/-- Initial machine for `n` concurrent invocations of a `syncPromise`-guarded
function whose bodies take the given numbers of steps. -/
def syncInit (durs : List Nat) : SyncSt :=
  ⟨durs.map (fun d => ⟨d, d⟩), []⟩

/-- Concatenated blocks `[k, k, ...]` (lengths given by `cs`, labels counting
up from `k`): the shape of any serialized trace. -/
def blocksFrom (k : Nat) : List Nat → List Nat
  | [] => []
  | c :: cs => List.replicate c k ++ blocksFrom (k + 1) cs

/-- The serialized-trace shape starting at call 0. -/
def blocks (cs : List Nat) : List Nat := blocksFrom 0 cs

lemma ceilDiv_zero_left (P : Nat) : ceilDiv 0 P = 0 := by
  rcases Nat.eq_zero_or_pos P with h | h
  · subst h; rfl
  · unfold ceilDiv
    exact Nat.div_eq_of_lt (by omega)

lemma ceilDiv_le_iff {P : Nat} (hP : 0 < P) (n j : Nat) :
    ceilDiv n P ≤ j ↔ n ≤ j * P := by
  unfold ceilDiv
  rw [← Nat.lt_succ_iff, Nat.div_lt_iff_lt_mul hP, Nat.succ_mul]
  omega

lemma ceilDiv_pos_step {P : Nat} (hP : 0 < P) {n : Nat} (hn : 0 < n) :
    ceilDiv n P = ceilDiv (n - P) P + 1 := by
  unfold ceilDiv
  rcases le_or_lt n P with h | h
  · have h1 : n - P = 0 := by omega
    rw [h1]
    have h2 : (0 + P - 1) / P = 0 := Nat.div_eq_of_lt (by omega)
    rw [h2]
    have h3 : n + P - 1 = (n - 1) + P := by omega
    rw [h3, Nat.add_div_right _ hP]
    have h4 : (n - 1) / P = 0 := Nat.div_eq_of_lt (by omega)
    omega
  · have h3 : n + P - 1 = (n - 1) + P := by omega
    have h4 : n - P + P - 1 = (n - P - 1) + P := by omega
    have h5 : n - 1 = (n - P - 1) + P := by omega
    rw [h3, h4, Nat.add_div_right _ hP, Nat.add_div_right _ hP, h5,
      Nat.add_div_right _ hP]

lemma partsFrom_nil (hashB : Bytes → Bytes) (P k : Nat) :
    partsFrom hashB P [] k = [] := by
  simp [partsFrom, ceilDiv_zero_left]

lemma partsFrom_cons (hashB : Bytes → Bytes) {P : Nat} (hP : 0 < P)
    (bytes : Bytes) (k : Nat) (hb : bytes.length ≠ 0) :
    partsFrom hashB P bytes k =
      { number := k, hash := hashB (bytes.take P), data := bytes.take P } ::
        partsFrom hashB P (bytes.drop P) (k + 1) := by
  unfold partsFrom
  rw [List.length_drop, ceilDiv_pos_step hP (by omega), List.range_succ_eq_map,
    List.map_cons, List.map_map]
  congr 1
  · simp
  · apply List.map_congr_left
    intro i _
    simp only [Function.comp_apply, Nat.succ_eq_add_one, List.drop_drop]
    have h1 : (i + 1) * P = P + i * P := by rw [Nat.succ_mul]; omega
    have h2 : k + (i + 1) = k + 1 + i := by omega
    rw [h1, h2]

lemma runParts_stream_done (hashB : Bytes → Bytes) (P : Nat) (k : Nat) :
    ∀ fuel, runParts (streamNext hashB P) fuel ⟨[], k, true⟩ = [] := by
  intro fuel
  cases fuel with
  | zero => rfl
  | succ f => simp [runParts, streamNext]

lemma runStream_eq (hashB : Bytes → Bytes) {P : Nat} (hP : 0 < P) :
    ∀ fuel bytes k, bytes.length < fuel →
      runParts (streamNext hashB P) fuel ⟨bytes, k, false⟩ =
        partsFrom hashB P bytes k := by
  intro fuel
  induction fuel with
  | zero => intro bytes k h; omega
  | succ f ih =>
    intro bytes k h
    by_cases hlen : bytes.length = 0
    · have hb : bytes = [] := List.length_eq_zero.mp hlen
      subst hb
      simp [runParts, streamNext, Nat.not_le.mpr hP, partsFrom_nil]
    · by_cases hfull : P ≤ bytes.length
      · have hnext : streamNext hashB P ⟨bytes, k, false⟩ =
            (some { number := k, hash := hashB (bytes.take P),
                    data := bytes.take P },
             ⟨bytes.drop P, k + 1, false⟩) := by
          simp [streamNext, hfull]
        rw [partsFrom_cons hashB hP bytes k hlen]
        simp only [runParts, hnext]
        rw [ih (bytes.drop P) (k + 1) (by rw [List.length_drop]; omega)]
      · have ht : bytes.take P = bytes := List.take_of_length_le (by omega)
        have hd : bytes.drop P = [] := List.drop_eq_nil_of_le (by omega)
        have hnext : streamNext hashB P ⟨bytes, k, false⟩ =
            (some { number := k, hash := hashB bytes, data := bytes },
             ⟨[], k + 1, true⟩) := by
          simp [streamNext, hfull, hlen]
        rw [partsFrom_cons hashB hP bytes k hlen]
        simp only [runParts, hnext, runParts_stream_done, ht, hd, partsFrom_nil]

lemma runBuffer_eq (hashB : Bytes → Bytes) {P : Nat} (hP : 0 < P)
    (data : Bytes) :
    ∀ fuel j, bufferTotal data P - j ≤ fuel →
      runParts (bufferNext hashB data P) fuel ⟨j⟩ =
        partsFrom hashB P (data.drop (j * P)) (j + 1) := by
  intro fuel
  induction fuel with
  | zero =>
    intro j h
    have htot : bufferTotal data P ≤ j := by omega
    have hle : data.length ≤ j * P := (ceilDiv_le_iff hP _ _).mp htot
    rw [List.drop_eq_nil_of_le hle]
    simp [runParts, partsFrom_nil]
  | succ f ih =>
    intro j h
    by_cases hj : bufferTotal data P ≤ j
    · have hle : data.length ≤ j * P := (ceilDiv_le_iff hP _ _).mp hj
      rw [List.drop_eq_nil_of_le hle]
      simp [runParts, bufferNext, hj, partsFrom_nil]
    · have hjP : j * P < data.length := by
        by_contra hc
        exact hj ((ceilDiv_le_iff hP _ _).mpr (by omega))
      simp only [runParts, bufferNext, if_neg hj]
      rw [ih (j + 1) (by omega)]
      rw [partsFrom_cons hashB hP (data.drop (j * P)) (j + 1)
        (by rw [List.length_drop]; omega)]
      have hstep : (j + 1) * P = j * P + P := by rw [Nat.succ_mul]
      rw [List.drop_drop, ← hstep]

lemma bufferRun_eq (hashB : Bytes → Bytes) {P : Nat} (hP : 0 < P)
    (data : Bytes) : bufferRun hashB data P = partsFrom hashB P data 1 := by
  unfold bufferRun
  rw [runBuffer_eq hashB hP data (bufferTotal data P) 0 (by omega)]
  simp

lemma streamRun_eq (hashB : Bytes → Bytes) {P : Nat} (hP : 0 < P)
    (bytes : Bytes) : streamRun hashB P bytes = partsFrom hashB P bytes 1 := by
  unfold streamRun
  exact runStream_eq hashB hP (bytes.length + 1) bytes 1 (by omega)

lemma fileNext_eq (hashB : Bytes → Bytes) (contents : Bytes) (P : Nat)
    (st : BufSt) :
    fileNext hashB contents P st = bufferNext hashB contents P st := by
  by_cases hc : ceilDiv contents.length P ≤ st.piece
  · simp [fileNext, bufferNext, bufferTotal, hc]
  · simp only [fileNext, bufferNext, bufferTotal, if_neg hc]
    have hmin : min (st.piece * P + P) contents.length - st.piece * P =
        min P ((contents.drop (st.piece * P)).length) := by
      rw [List.length_drop]; omega
    rw [hmin, ← List.take_take, List.take_length]

lemma fileRun_eq (hashB : Bytes → Bytes) (contents : Bytes) (P : Nat) :
    fileRun hashB contents P = bufferRun hashB contents P := by
  unfold fileRun bufferRun bufferTotal
  have hfn : fileNext hashB contents P = bufferNext hashB contents P :=
    funext (fileNext_eq hashB contents P)
  rw [hfn]

lemma partsFrom_length (hashB : Bytes → Bytes) (P : Nat) (bytes : Bytes)
    (k : Nat) : (partsFrom hashB P bytes k).length = ceilDiv bytes.length P := by
  simp [partsFrom]

lemma partsFrom_numbers (hashB : Bytes → Bytes) (P : Nat) (bytes : Bytes)
    (k : Nat) :
    (partsFrom hashB P bytes k).map (fun p => p.number) =
      List.range' k (ceilDiv bytes.length P) := by
  simp only [partsFrom, List.map_map, List.range'_eq_map_range]
  rfl

lemma partsFrom_sum_aux (hashB : Bytes → Bytes) {P : Nat} (hP : 0 < P) :
    ∀ fuel bytes k, bytes.length ≤ fuel →
      ((partsFrom hashB P bytes k).map (fun p => p.data.length)).sum =
        bytes.length := by
  intro fuel
  induction fuel with
  | zero =>
    intro bytes k h
    have hb : bytes = [] := List.length_eq_zero.mp (by omega)
    subst hb
    simp [partsFrom_nil]
  | succ f ih =>
    intro bytes k h
    by_cases hlen : bytes.length = 0
    · have hb : bytes = [] := List.length_eq_zero.mp hlen
      subst hb
      simp [partsFrom_nil]
    · rw [partsFrom_cons hashB hP bytes k hlen]
      simp only [List.map_cons, List.sum_cons]
      rw [ih (bytes.drop P) (k + 1) (by rw [List.length_drop]; omega)]
      rw [List.length_take, List.length_drop]
      omega

lemma partsFrom_sum (hashB : Bytes → Bytes) {P : Nat} (hP : 0 < P)
    (bytes : Bytes) (k : Nat) :
    ((partsFrom hashB P bytes k).map (fun p => p.data.length)).sum =
      bytes.length :=
  partsFrom_sum_aux hashB hP bytes.length bytes k (le_refl _)

lemma partsFrom_size (hashB : Bytes → Bytes) {P : Nat} (hP : 0 < P)
    (bytes : Bytes) (k i : Nat) (hi : i + 1 < ceilDiv bytes.length P) :
    ((partsFrom hashB P bytes k).map (fun p => p.data.length)).get? i =
      some P := by
  have hlt : (i + 1) * P < bytes.length := by
    by_contra hc
    have := (ceilDiv_le_iff hP bytes.length (i + 1)).mpr (by omega)
    omega
  have hiN : i < ceilDiv bytes.length P := by omega
  unfold partsFrom
  rw [List.map_map, List.get?_map, List.get?_eq_getElem?,
    List.getElem?_range hiN]
  simp only [Option.map_some', Function.comp_apply, List.length_take,
    List.length_drop]
  have : (i + 1) * P = i * P + P := Nat.succ_mul i P
  congr 1
  omega

lemma partsFrom_ok (hashB : Bytes → Bytes) {P : Nat} (hP : 0 < P)
    (bytes : Bytes) : partsOk (partsFrom hashB P bytes 1) bytes.length P := by
  refine ⟨partsFrom_length hashB P bytes 1, ?_, partsFrom_sum hashB hP bytes 1,
    fun i hi => partsFrom_size hashB hP bytes 1 i hi⟩
  exact partsFrom_numbers hashB P bytes 1

lemma probeAux_split (thr : Nat) :
    ∀ cs acc size,
      (probeAux thr acc size cs).readBuffer ++ (probeAux thr acc size cs).rest =
        acc ++ cs := by
  intro cs
  induction cs with
  | nil => intro acc size; simp [probeAux]
  | cons c cs ih =>
    intro acc size
    simp only [probeAux]
    by_cases h : thr ≤ size + c.length
    · simp [h]
    · rw [if_neg h, ih (acc ++ [c]) (size + c.length)]
      simp

lemma probeAux_large (thr : Nat) :
    ∀ cs acc size,
      (probeAux thr acc size cs).large =
        decide (thr ≤ size + cs.flatten.length) := by
  intro cs
  induction cs with
  | nil => intro acc size; simp [probeAux]
  | cons c cs ih =>
    intro acc size
    simp only [probeAux]
    by_cases h : thr ≤ size + c.length
    · rw [if_pos h]
      symm
      simp only [List.flatten_cons, List.length_append, decide_eq_true_eq]
      omega
    · rw [if_neg h, ih (acc ++ [c]) (size + c.length)]
      have hassoc : size + c.length + cs.flatten.length =
          size + (c :: cs).flatten.length := by
        simp only [List.flatten_cons, List.length_append]
        omega
      congr 1
      rw [hassoc]

lemma probe_split (thr : Nat) (chunks : List Bytes) :
    (probe thr chunks).readBuffer ++ (probe thr chunks).rest = chunks :=
  probeAux_split thr chunks [] 0

lemma probe_large (thr : Nat) (chunks : List Bytes) :
    (probe thr chunks).large = decide (thr ≤ chunks.flatten.length) := by
  rw [probe, probeAux_large thr chunks [] 0]
  congr 1
  rw [Nat.zero_add]

/-- C1: for every partitioned source of total size `S ≥ largeFileThreshold`
and part size `P`, the adapter's successive `next()` calls yield exactly
`ceil(S/P)` parts, numbered `1..N` contiguously with no gaps, whose byte
lengths sum to `S`, with every part except possibly the last of length
exactly `P` — for the Buffer, File, and Stream adapters alike. -/
theorem claim_c1 (hashB : Bytes → Bytes) (P thr : Nat) (data : Bytes)
    (hP : 0 < P) (hthr : thr ≤ data.length) :
    partsOk (bufferRun hashB data P) data.length P ∧
    partsOk (fileRun hashB data P) data.length P ∧
    partsOk (streamRun hashB P data) data.length P := by
  have hb := partsFrom_ok hashB hP data
  refine ⟨?_, ?_, ?_⟩
  · rw [bufferRun_eq hashB hP data]; exact hb
  · rw [fileRun_eq, bufferRun_eq hashB hP data]; exact hb
  · rw [streamRun_eq hashB hP data]; exact hb

/-- Witness for C1: a five-byte source with part size 2 and threshold 3. -/
theorem claim_c1_witness :
    0 < 2 ∧ 3 ≤ ([9, 8, 7, 6, 5] : Bytes).length ∧
      (partsOk (bufferRun (fun b => [b.sum]) [9, 8, 7, 6, 5] 2)
          ([9, 8, 7, 6, 5] : Bytes).length 2 ∧
        partsOk (fileRun (fun b => [b.sum]) [9, 8, 7, 6, 5] 2)
          ([9, 8, 7, 6, 5] : Bytes).length 2 ∧
        partsOk (streamRun (fun b => [b.sum]) 2 [9, 8, 7, 6, 5])
          ([9, 8, 7, 6, 5] : Bytes).length 2) :=
  ⟨by decide, by decide,
    claim_c1 (fun b => [b.sum]) 2 3 [9, 8, 7, 6, 5] (by decide) (by decide)⟩

/-- C2: for every upload request, a source strictly below
`largeFileThreshold` gets the Direct interface and the Direct path, and a
source at or above it gets the Partitioned interface and the Partitioned
path — for buffer, file, and stream sources alike (the stream's size being
its total byte count as observed by the probe). -/
theorem claim_c2 (hashB : Bytes → Bytes) (thr P : Nat) (data contents : Bytes)
    (chunks : List Bytes) :
    (((bufferSourceInterface hashB thr P data).isDirect = true ∧
        chosenPath (bufferSourceInterface hashB thr P data) = UploadPath.direct) ↔
      data.length < thr) ∧
    (((fileSourceInterface hashB thr P contents).isDirect = true ∧
        chosenPath (fileSourceInterface hashB thr P contents) = UploadPath.direct) ↔
      contents.length < thr) ∧
    (((streamSourceInterface hashB thr P chunks).isDirect = true ∧
        chosenPath (streamSourceInterface hashB thr P chunks) = UploadPath.direct) ↔
      chunks.flatten.length < thr) := by
  refine ⟨?_, ?_, ?_⟩
  · by_cases h : thr ≤ data.length <;>
      simp [bufferSourceInterface, chosenPath, SrcIf.isDirect, h] <;> omega
  · by_cases h : thr ≤ contents.length <;>
      simp [fileSourceInterface, chosenPath, SrcIf.isDirect, h] <;> omega
  · by_cases h : thr ≤ chunks.flatten.length
    · have hl : (probe thr chunks).large = true := by
        rw [probe_large]; simpa using h
      rw [List.length_flatten] at h
      simp [streamSourceInterface, hl, chosenPath, SrcIf.isDirect]
      omega
    · have hl : (probe thr chunks).large = false := by
        rw [probe_large]; simpa using h
      rw [List.length_flatten] at h
      simp [streamSourceInterface, hl, chosenPath, SrcIf.isDirect]
      omega

/-- C9: the Buffer adapter over a byte sequence of size at least
`largeFileThreshold` and the Stream adapter over any chunking of the same
bytes both take the Partitioned shape and yield the same number of parts
with identical per-part hashes, part by part, in order. -/
theorem claim_c9 (hashB : Bytes → Bytes) (P thr : Nat) (chunks : List Bytes)
    (hP : 0 < P) (hthr : thr ≤ chunks.flatten.length) :
    ∃ ps1 ps2,
      bufferSourceInterface hashB thr P chunks.flatten = SrcIf.part ps1 ∧
      streamSourceInterface hashB thr P chunks = SrcIf.part ps2 ∧
      ps1.length = ps2.length ∧
      ps1.map (fun p => p.hash) = ps2.map (fun p => p.hash) := by
  refine ⟨bufferRun hashB chunks.flatten P, streamRun hashB P chunks.flatten,
    ?_, ?_, ?_, ?_⟩
  · rw [bufferSourceInterface, if_pos hthr]
  · have hl : (probe thr chunks).large = true := by
      rw [probe_large]; simpa using hthr
    have hsplit :
        (probe thr chunks).readBuffer.flatten ++ (probe thr chunks).rest.flatten =
          chunks.flatten := by
      rw [← List.flatten_append, probe_split]
    simp [streamSourceInterface, hl, hsplit]
  · rw [bufferRun_eq hashB hP, streamRun_eq hashB hP]
  · rw [bufferRun_eq hashB hP, streamRun_eq hashB hP]

/-- Witness for C9: the bytes `[1, 2, 3, 4, 5]` chunked as
`[[1, 2], [3], [4, 5]]`, with part size 2 and threshold 3. -/
theorem claim_c9_witness :
    0 < 2 ∧ 3 ≤ ([[1, 2], [3], [4, 5]] : List Bytes).flatten.length ∧
      (∃ ps1 ps2,
        bufferSourceInterface (fun b => [b.sum]) 3 2
            ([[1, 2], [3], [4, 5]] : List Bytes).flatten = SrcIf.part ps1 ∧
        streamSourceInterface (fun b => [b.sum]) 3 2 [[1, 2], [3], [4, 5]] =
          SrcIf.part ps2 ∧
        ps1.length = ps2.length ∧
        ps1.map (fun p => p.hash) = ps2.map (fun p => p.hash)) :=
  ⟨by decide, by decide,
    claim_c9 (fun b => [b.sum]) 2 3 [[1, 2], [3], [4, 5]] (by decide) (by decide)⟩


/-- Decidable equality on `Except` results, needed to evaluate concrete
borrow runs. -/
instance {α β : Type} [DecidableEq α] [DecidableEq β] :
    DecidableEq (Except α β) := fun a b =>
  match a, b with
  | .ok x, .ok y =>
    if h : x = y then isTrue (by rw [h]) else isFalse (by simp [h])
  | .error x, .error y =>
    if h : x = y then isTrue (by rw [h]) else isFalse (by simp [h])
  | .ok _, .error _ => isFalse (by simp)
  | .error _, .ok _ => isFalse (by simp)

/-- C3: when the work of a borrow call fails once with HTTP 503 (or
connection-refused `ECONNREFUSED`, or connect-timeout `ETIMEDOUT`) and then
succeeds, the failing credential is discarded (not requeued), exactly one
fresh credential is obtained for the retry, and the call returns the work's
result.  The pool starts with the single credential `t0`; the retry's
credential is the freshly issued `t0 + 1`. -/
theorem claim_c3 (t0 v : Nat) (e : ErrInfo)
    (hcfg : e.hasConfig = true) (hurl : e.configUrl = t0)
    (h401 : e.status ≠ some 401)
    (hcls : e.status = some 503 ∨ e.code = some ECode.ECONNREFUSED ∨
      e.code = some ECode.ETIMEDOUT)
    (hra : e.retryAfter = none) :
    (borrowRun [t0] (t0 + 1) [.fail e, .ok v]).1 = .ok v ∧
    (borrowRun [t0] (t0 + 1) [.fail e, .ok v]).2.discards = 1 ∧
    (borrowRun [t0] (t0 + 1) [.fail e, .ok v]).2.freshCalls = 1 ∧
    (borrowRun [t0] (t0 + 1) [.fail e, .ok v]).2.queue = [t0 + 1] ∧
    t0 ∉ (borrowRun [t0] (t0 + 1) [.fail e, .ok v]).2.queue ∧
    (borrowRun [t0] (t0 + 1) [.fail e, .ok v]).2.invocations = 2 := by
  have hd1 : discardClass1 e := hcls
  have key : borrowRun [t0] (t0 + 1) [.fail e, .ok v] =
      (.ok v, ⟨[t0 + 1], t0 + 2, 1, 0, 1, 2, [], 1⟩) := by
    simp [borrowRun, initSt, pRetryLoop, attempt, acquire, hcfg, hurl, h401,
      hra, hd1]
  rw [key]
  refine ⟨rfl, rfl, rfl, rfl, ?_, rfl⟩
  simp

/-- Witness for C3: pool `[5]`, a related 503 with no retry-after, then a
success with value 7. -/
theorem claim_c3_witness :
    (⟨true, 5, some 503, none, false, none⟩ : ErrInfo).hasConfig = true ∧
    (borrowRun [5] 6 [.fail ⟨true, 5, some 503, none, false, none⟩, .ok 7]).1 =
      .ok 7 ∧
    (borrowRun [5] 6
        [.fail ⟨true, 5, some 503, none, false, none⟩, .ok 7]).2.discards = 1 ∧
    (borrowRun [5] 6
        [.fail ⟨true, 5, some 503, none, false, none⟩, .ok 7]).2.freshCalls = 1 :=
  ⟨rfl,
    (claim_c3 5 7 ⟨true, 5, some 503, none, false, none⟩ rfl rfl (by decide)
        (Or.inl rfl) rfl).1,
    (claim_c3 5 7 ⟨true, 5, some 503, none, false, none⟩ rfl rfl (by decide)
        (Or.inl rfl) rfl).2.1,
    (claim_c3 5 7 ⟨true, 5, some 503, none, false, none⟩ rfl rfl (by decide)
        (Or.inl rfl) rfl).2.2.1⟩

/-- C6: when a borrow attempt fails with a retryable classification and the
error response carries an explicit retry-after value, the next attempt is
delayed by exactly that value and the delayed re-attempt is performed by
recursing inside the same `pRetry` try, consuming none of the 10-attempt
retry budget. -/
theorem claim_c6 (t0 v ra : Nat) (e : ErrInfo)
    (hcfg : e.hasConfig = true) (hurl : e.configUrl = t0)
    (h401 : e.status ≠ some 401)
    (hcls : discardClass1 e ∨ discardClass2 e ∨ keepClass e)
    (hra : e.retryAfter = some ra) :
    (borrowRun [t0] (t0 + 1) [.fail e, .ok v]).1 = .ok v ∧
    (borrowRun [t0] (t0 + 1) [.fail e, .ok v]).2.delays = [ra] ∧
    (borrowRun [t0] (t0 + 1) [.fail e, .ok v]).2.budgetUsed = 0 ∧
    (borrowRun [t0] (t0 + 1) [.fail e, .ok v]).2.invocations = 2 := by
  by_cases h1 : discardClass1 e
  · have key : borrowRun [t0] (t0 + 1) [.fail e, .ok v] =
        (.ok v, ⟨[t0 + 1], t0 + 2, 1, 0, 1, 2, [ra], 0⟩) := by
      simp [borrowRun, initSt, pRetryLoop, attempt, acquire, hcfg, hurl, h401,
        hra, h1]
    rw [key]
    exact ⟨rfl, rfl, rfl, rfl⟩
  · by_cases h2 : discardClass2 e
    · have key : borrowRun [t0] (t0 + 1) [.fail e, .ok v] =
          (.ok v, ⟨[t0 + 1], t0 + 2, 1, 0, 1, 2, [ra], 0⟩) := by
        simp [borrowRun, initSt, pRetryLoop, attempt, acquire, hcfg, hurl,
          h401, hra, h1, h2]
      rw [key]
      exact ⟨rfl, rfl, rfl, rfl⟩
    · have h3 : keepClass e := by
        rcases hcls with h | h | h
        · exact absurd h h1
        · exact absurd h h2
        · exact h
      have key : borrowRun [t0] (t0 + 1) [.fail e, .ok v] =
          (.ok v, ⟨[t0], t0 + 1, 0, 0, 0, 2, [ra], 0⟩) := by
        simp [borrowRun, initSt, pRetryLoop, attempt, acquire, hcfg, hurl,
          h401, hra, h1, h2, h3]
      rw [key]
      exact ⟨rfl, rfl, rfl, rfl⟩

/-- Witness for C6: pool `[5]`, a related 503 carrying retry-after 250, then
a success: the delay list is `[250]` and no retry budget is consumed. -/
theorem claim_c6_witness :
    (⟨true, 5, some 503, none, false, some 250⟩ : ErrInfo).retryAfter =
        some 250 ∧
    (borrowRun [5] 6
        [.fail ⟨true, 5, some 503, none, false, some 250⟩, .ok 7]).1 = .ok 7 ∧
    (borrowRun [5] 6
        [.fail ⟨true, 5, some 503, none, false, some 250⟩, .ok 7]).2.delays =
      [250] ∧
    (borrowRun [5] 6
        [.fail ⟨true, 5, some 503, none, false, some 250⟩, .ok 7]).2.budgetUsed =
      0 :=
  ⟨rfl,
    (claim_c6 5 7 250 ⟨true, 5, some 503, none, false, some 250⟩ rfl rfl
        (by decide) (Or.inl (Or.inl rfl)) rfl).1,
    (claim_c6 5 7 250 ⟨true, 5, some 503, none, false, some 250⟩ rfl rfl
        (by decide) (Or.inl (Or.inl rfl)) rfl).2.1,
    (claim_c6 5 7 250 ⟨true, 5, some 503, none, false, some 250⟩ rfl rfl
        (by decide) (Or.inl (Or.inl rfl)) rfl).2.2.1⟩

/-- C7: when the work of a borrow call fails with an error matching no retry
and no reauthorization rule (for example a 403 response), the credential is
returned to the queue and the call fails permanently with that error after
the single attempt, regardless of what later outcomes would have been
available: no further attempt is made and no retry budget is consumed. -/
theorem claim_c7 (t0 : Nat) (e : ErrInfo) (script : List Outcome)
    (hcfg : e.hasConfig = true) (hurl : e.configUrl = t0)
    (h401 : e.status ≠ some 401)
    (hn1 : ¬discardClass1 e) (hn2 : ¬discardClass2 e) (hn3 : ¬keepClass e) :
    (borrowRun [t0] (t0 + 1) (.fail e :: script)).1 = .error e ∧
    (borrowRun [t0] (t0 + 1) (.fail e :: script)).2.invocations = 1 ∧
    (borrowRun [t0] (t0 + 1) (.fail e :: script)).2.queue = [t0] ∧
    (borrowRun [t0] (t0 + 1) (.fail e :: script)).2.freshCalls = 0 ∧
    (borrowRun [t0] (t0 + 1) (.fail e :: script)).2.budgetUsed = 0 := by
  have key : borrowRun [t0] (t0 + 1) (.fail e :: script) =
      (.error e, ⟨[t0], t0 + 1, 0, 0, 0, 1, [], 0⟩) := by
    simp [borrowRun, initSt, pRetryLoop, attempt, acquire, hcfg, hurl, h401,
      hn1, hn2, hn3]
  rw [key]
  exact ⟨rfl, rfl, rfl, rfl, rfl⟩

/-- Witness for C7: a related 403 followed by an available success outcome
that is never requested. -/
theorem claim_c7_witness :
    (⟨true, 5, some 403, none, false, none⟩ : ErrInfo).hasConfig = true ∧
    (borrowRun [5] 6 [.fail ⟨true, 5, some 403, none, false, none⟩, .ok 7]).1 =
      .error ⟨true, 5, some 403, none, false, none⟩ ∧
    (borrowRun [5] 6
        [.fail ⟨true, 5, some 403, none, false, none⟩, .ok 7]).2.invocations =
      1 :=
  ⟨rfl,
    (claim_c7 5 ⟨true, 5, some 403, none, false, none⟩ [.ok 7] rfl rfl
        (by decide) (by decide) (by decide) (by decide)).1,
    (claim_c7 5 ⟨true, 5, some 403, none, false, none⟩ [.ok 7] rfl rfl
        (by decide) (by decide) (by decide) (by decide)).2.1⟩

/-- C8 counterexample: with pool `[5]`, a work failure carrying no request
config (so it is unrelated to the borrowed credential's upload URL) followed
by a success, the borrow call does NOT rethrow the error immediately — the
unrelated-error branch throws a plain error, `pRetry` retries, the second
attempt runs (two `workerFn` invocations) and the call returns the success.
This refutes the claim that the error is rethrown to the caller with no
retry attempt. -/
theorem claim_c8_counterexample :
    (borrowRun [5] 6 [.fail ⟨false, 0, some 418, none, false, none⟩, .ok 7]).1 =
        .ok 7 ∧
    (borrowRun [5] 6
        [.fail ⟨false, 0, some 418, none, false, none⟩,
          .ok 7]).2.invocations = 2 ∧
    (borrowRun [5] 6
        [.fail ⟨false, 0, some 418, none, false, none⟩, .ok 7]).2.queue =
      [5] ∧
    (borrowRun [5] 6
        [.fail ⟨false, 0, some 418, none, false, none⟩,
          .ok 7]).2.budgetUsed = 1 := by
  decide

lemma attempt_unrelated (e : ErrInfo) (t0 : Nat)
    (hunrel : ¬e.hasConfig = true ∨ e.configUrl ≠ t0) (rest : List Outcome)
    (st : BorrowSt) (hq : st.queue = [t0]) :
    attempt (.fail e :: rest) st =
      (.error (.plain e),
        { st with queue := [t0], invocations := st.invocations + 1 }, rest) := by
  obtain ⟨q, nid, fc, rc, dc, iv, dl, bu⟩ := st
  simp only at hq
  subst hq
  simp only [attempt, acquire]
  rw [if_pos hunrel]
  simp

lemma pRetryLoop_unrelated (e : ErrInfo) (t0 : Nat)
    (hunrel : ¬e.hasConfig = true ∨ e.configUrl ≠ t0) :
    ∀ r st, st.queue = [t0] →
      pRetryLoop r (List.replicate (r + 1) (.fail e)) st =
        (.error e,
          { st with queue := [t0], invocations := st.invocations + (r + 1),
                    budgetUsed := st.budgetUsed + r }) := by
  intro r
  induction r with
  | zero =>
    intro st hq
    simp only [List.replicate, pRetryLoop,
      attempt_unrelated e t0 hunrel [] st hq]
    simp
  | succ r ih =>
    intro st hq
    have hrep : List.replicate (r + 1 + 1) (Outcome.fail e) =
        Outcome.fail e :: List.replicate (r + 1) (Outcome.fail e) := rfl
    rw [hrep]
    simp only [pRetryLoop, attempt_unrelated e t0 hunrel _ st hq]
    rw [ih _ (by simp)]
    obtain ⟨q, nid, fc, rc, dc, iv, dl, bu⟩ := st
    simp
    omega

/-- C8 (amended): when the work of a borrow call fails with an error
unrelated to the borrowed credential's request (no request config, or a URL
differing from the credential's upload URL), each attempt returns the
credential to the queue untouched and rethrows the error as a plain
(retryable) failure, so the borrow engine retries it under the ordinary
10-attempt budget instead of failing immediately: with the error recurring
on every attempt the call fails with that error only after 10 `workerFn`
invocations, the credential still queued and no fresh credential issued. -/
theorem claim_c8_amended (t0 : Nat) (e : ErrInfo)
    (hunrel : e.hasConfig = false ∨ e.configUrl ≠ t0) :
    (borrowRun [t0] (t0 + 1) (List.replicate 10 (.fail e))).1 = .error e ∧
    (borrowRun [t0] (t0 + 1)
        (List.replicate 10 (.fail e))).2.invocations = 10 ∧
    (borrowRun [t0] (t0 + 1) (List.replicate 10 (.fail e))).2.queue = [t0] ∧
    (borrowRun [t0] (t0 + 1) (List.replicate 10 (.fail e))).2.freshCalls = 0 ∧
    (borrowRun [t0] (t0 + 1) (List.replicate 10 (.fail e))).2.budgetUsed =
      9 := by
  have hunrel' : ¬e.hasConfig = true ∨ e.configUrl ≠ t0 := by
    rcases hunrel with h | h
    · exact Or.inl (by simp [h])
    · exact Or.inr h
  have key := pRetryLoop_unrelated e t0 hunrel' 9 (initSt [t0] (t0 + 1)) rfl
  rw [borrowRun, key]
  exact ⟨rfl, rfl, rfl, rfl, rfl⟩

/-- Witness for C8 (amended): a config-less 418 failing all ten attempts. -/
theorem claim_c8_amended_witness :
    ((⟨false, 0, some 418, none, false, none⟩ : ErrInfo).hasConfig = false ∨
      (⟨false, 0, some 418, none, false, none⟩ : ErrInfo).configUrl ≠ 5) ∧
    (borrowRun [5] 6
        (List.replicate 10 (.fail ⟨false, 0, some 418, none, false, none⟩))).1 =
      .error ⟨false, 0, some 418, none, false, none⟩ ∧
    (borrowRun [5] 6
        (List.replicate 10
          (.fail ⟨false, 0, some 418, none, false, none⟩))).2.invocations =
      10 :=
  ⟨Or.inl rfl,
    (claim_c8_amended 5 ⟨false, 0, some 418, none, false, none⟩
        (Or.inl rfl)).1,
    (claim_c8_amended 5 ⟨false, 0, some 418, none, false, none⟩
        (Or.inl rfl)).2.1⟩

lemma wpStep_inv (st : WPSt) (ev : WEv) (parts done : List PartR)
    (h1 : st.hashes = done.map (fun p => p.hash))
    (h2 : done ++ st.pending = parts) :
    ∃ done', (wpStep st ev).hashes = done'.map (fun p => p.hash) ∧
      done' ++ (wpStep st ev).pending = parts := by
  cases ev with
  | dispatch =>
    obtain ⟨pending, hashes, avail, infl⟩ := st
    simp only at h1 h2
    simp only [wpStep]
    by_cases ha : 0 < avail
    · rw [if_pos ha]
      cases pending with
      | nil => exact ⟨done, h1, h2⟩
      | cons p rest =>
        refine ⟨done ++ [p], ?_, ?_⟩
        · simp [h1]
        · rw [List.append_assoc]
          simpa using h2
    · rw [if_neg ha]
      exact ⟨done, h1, h2⟩
  | complete =>
    simp only [wpStep]
    by_cases hi : 0 < st.inFlight
    · rw [if_pos hi]
      exact ⟨done, h1, h2⟩
    · rw [if_neg hi]
      exact ⟨done, h1, h2⟩

lemma wpRun_inv :
    ∀ (sched : List WEv) (st : WPSt) (parts done : List PartR),
      st.hashes = done.map (fun p => p.hash) → done ++ st.pending = parts →
      ∃ done', (sched.foldl wpStep st).hashes = done'.map (fun p => p.hash) ∧
        done' ++ (sched.foldl wpStep st).pending = parts := by
  intro sched
  induction sched with
  | nil => intro st parts done h1 h2; exact ⟨done, h1, h2⟩
  | cons ev evs ih =>
    intro st parts done h1 h2
    rw [List.foldl_cons]
    obtain ⟨done', h1', h2'⟩ := wpStep_inv st ev parts done h1 h2
    exact ih (wpStep st ev) parts done' h1' h2'

/-- C4: for every partitioned upload in which all parts upload successfully,
under every worker-pool schedule (dispatches and completions in any order)
that dispatches all parts, the `hashes` array handed to `finishLargeFile` via
`Promise.all` lists the part hashes ordered by ascending part number — index
`i` holds the hash of part `i + 1` — regardless of the order in which the
concurrent part uploads completed. -/
theorem claim_c4 (parts : List PartR) (c : Nat) (sched : List WEv)
    (hnum : parts.map (fun p => p.number) = List.range' 1 parts.length)
    (hdone : (wpRun parts c sched).pending = []) :
    (wpRun parts c sched).hashes = parts.map (fun p => p.hash) ∧
    ∀ i, i < parts.length →
      ∃ p, parts.get? i = some p ∧ p.number = i + 1 ∧
        (wpRun parts c sched).hashes.get? i = some p.hash := by
  obtain ⟨done', h1, h2⟩ :=
    wpRun_inv sched ⟨parts, [], c, 0⟩ parts [] rfl rfl
  rw [wpRun] at hdone
  rw [hdone, List.append_nil] at h2
  subst h2
  rw [wpRun]
  refine ⟨h1, ?_⟩
  intro i hi
  obtain ⟨p, hp⟩ : ∃ p, done'.get? i = some p := by
    rw [List.get?_eq_getElem?]
    exact ⟨_, List.getElem?_eq_getElem hi⟩
  refine ⟨p, hp, ?_, ?_⟩
  · have hmap := congrArg (fun l => l.get? i) hnum
    dsimp only at hmap
    rw [List.get?_map, hp, List.get?_eq_getElem?,
      List.getElem?_range' 1 1 hi] at hmap
    simp at hmap
    omega
  · rw [h1, List.get?_map, hp]
    rfl

/-- Witness for C4: three parts with concurrency 2 under a schedule whose
completions arrive out of step with dispatch order. -/
theorem claim_c4_witness :
    (([⟨1, [10], [0]⟩, ⟨2, [20], [1]⟩, ⟨3, [30], [2]⟩] : List PartR).map
        (fun p => p.number) =
      List.range' 1 ([⟨1, [10], [0]⟩, ⟨2, [20], [1]⟩,
        ⟨3, [30], [2]⟩] : List PartR).length) ∧
    (wpRun [⟨1, [10], [0]⟩, ⟨2, [20], [1]⟩, ⟨3, [30], [2]⟩] 2
        [.dispatch, .dispatch, .complete, .dispatch, .complete,
          .complete]).pending = [] ∧
    (wpRun [⟨1, [10], [0]⟩, ⟨2, [20], [1]⟩, ⟨3, [30], [2]⟩] 2
        [.dispatch, .dispatch, .complete, .dispatch, .complete,
          .complete]).hashes =
      ([⟨1, [10], [0]⟩, ⟨2, [20], [1]⟩, ⟨3, [30], [2]⟩] : List PartR).map
        (fun p => p.hash) :=
  ⟨by decide, by decide,
    (claim_c4 [⟨1, [10], [0]⟩, ⟨2, [20], [1]⟩, ⟨3, [30], [2]⟩] 2
        [.dispatch, .dispatch, .complete, .dispatch, .complete, .complete]
        (by decide) (by decide)).1⟩

/-- Environment exhibiting the C5 counterexample: the session starts, the
part phase fails with a 500-classed error, and the cancellation call itself
fails with a different (502-classed) error. -/
def c5FailEnv : LgEnv where
  startRes := .ok 1
  partsRes := .error ⟨true, 0, some 500, none, false, none⟩
  finishRes := fun _ => .ok 3
  cancelRes := fun _ => .error ⟨true, 9, some 502, none, false, none⟩

/-- C5 counterexample: when `startLargeFile` succeeds, a later step fails,
and the `cancelLargeFile` call in the catch block itself fails, the awaited
cancel rejection replaces the original error — the call rejects with the
cancellation failure, so the original error is never rethrown to the caller
and the session was not terminated, refuting the claim as stated. -/
theorem claim_c5_counterexample :
    (doLargeUpload c5FailEnv).1 = .error ⟨true, 9, some 502, none, false, none⟩ ∧
    (⟨true, 9, some 502, none, false, none⟩ : ErrInfo) ≠
      ⟨true, 0, some 500, none, false, none⟩ ∧
    c5FailEnv.partsRes = .error ⟨true, 0, some 500, none, false, none⟩ ∧
    BCall.cancelCall 1 ∈ (doLargeUpload c5FailEnv).2 := by
  refine ⟨rfl, by decide, rfl, ?_⟩
  simp [doLargeUpload, c5FailEnv]

/-- C5 (amended): for every partitioned upload in which `startLargeFile`
succeeds but the part phase or the finish call fails, `cancelLargeFile` is
invoked for that session before the call rejects; the original error is
rethrown when the cancel call succeeds, while a failing cancel call replaces
it with the cancellation error; the call never reports partial success — it
either returns the `finishLargeFile` result or rejects. -/
theorem claim_c5_amended (env : LgEnv) (fid : Nat)
    (hstart : env.startRes = .ok fid) :
    (∀ e, env.partsRes = .error e →
      BCall.cancelCall fid ∈ (doLargeUpload env).2 ∧
      (env.cancelRes fid = .ok () → (doLargeUpload env).1 = .error e) ∧
      (∀ e2, env.cancelRes fid = .error e2 →
        (doLargeUpload env).1 = .error e2) ∧
      ∀ r, (doLargeUpload env).1 ≠ .ok r) ∧
    (∀ hs e, env.partsRes = .ok hs → env.finishRes hs = .error e →
      BCall.cancelCall fid ∈ (doLargeUpload env).2 ∧
      (env.cancelRes fid = .ok () → (doLargeUpload env).1 = .error e) ∧
      (∀ e2, env.cancelRes fid = .error e2 →
        (doLargeUpload env).1 = .error e2) ∧
      ∀ r, (doLargeUpload env).1 ≠ .ok r) ∧
    (∀ hs r, env.partsRes = .ok hs → env.finishRes hs = .ok r →
      (doLargeUpload env).1 = .ok r ∧
      (doLargeUpload env).2 = [.startCall, .finishCall fid hs]) := by
  refine ⟨?_, ?_, ?_⟩
  · intro e he
    cases hc : env.cancelRes fid with
    | ok u =>
      simp [doLargeUpload, hstart, he, hc]
    | error e2 =>
      simp [doLargeUpload, hstart, he, hc]
  · intro hs e hps hf
    cases hc : env.cancelRes fid with
    | ok u =>
      simp [doLargeUpload, hstart, hps, hf, hc]
    | error e2 =>
      simp [doLargeUpload, hstart, hps, hf, hc]
  · intro hs r hps hf
    simp [doLargeUpload, hstart, hps, hf]

/-- Environment for the C5 witness: part phase fails, cancellation succeeds. -/
def c5OkCancelEnv : LgEnv where
  startRes := .ok 1
  partsRes := .error ⟨true, 0, some 500, none, false, none⟩
  finishRes := fun _ => .ok 3
  cancelRes := fun _ => .ok ()

/-- Witness for C5 (amended): with a successful cancel, the session is
canceled and the original part-phase error is rethrown. -/
theorem claim_c5_amended_witness :
    c5OkCancelEnv.startRes = .ok 1 ∧
    c5OkCancelEnv.partsRes = .error ⟨true, 0, some 500, none, false, none⟩ ∧
    BCall.cancelCall 1 ∈ (doLargeUpload c5OkCancelEnv).2 ∧
    (doLargeUpload c5OkCancelEnv).1 =
      .error ⟨true, 0, some 500, none, false, none⟩ :=
  ⟨rfl, rfl,
    ((claim_c5_amended c5OkCancelEnv 1 rfl).1
        ⟨true, 0, some 500, none, false, none⟩ rfl).1,
    ((claim_c5_amended c5OkCancelEnv 1 rfl).1
        ⟨true, 0, some 500, none, false, none⟩ rfl).2.1 rfl⟩

/-- Steps of a guarded call's body that have already run. -/
def consumedSteps (c : SyncCall) : Nat := c.total - c.stepsLeft

lemma blocksFrom_all_zero :
    ∀ (cs : List Nat) (b : Nat), (∀ x ∈ cs, x = 0) → blocksFrom b cs = [] := by
  intro cs
  induction cs with
  | nil => intro b _; rfl
  | cons c cs ih =>
    intro b h
    have hc : c = 0 := h c (by simp)
    simp only [blocksFrom, hc, List.replicate_zero, List.nil_append]
    exact ih (b + 1) (fun x hx => h x (by simp [hx]))

lemma blocksFrom_mem_le :
    ∀ (cs : List Nat) (b x : Nat), x ∈ blocksFrom b cs → b ≤ x := by
  intro cs
  induction cs with
  | nil => intro b x hx; simp [blocksFrom] at hx
  | cons c cs ih =>
    intro b x hx
    simp only [blocksFrom, List.mem_append] at hx
    rcases hx with hx | hx
    · have := List.eq_of_mem_replicate hx
      omega
    · have := ih (b + 1) x hx
      omega

lemma blocksFrom_sorted :
    ∀ (cs : List Nat) (b : Nat), List.Pairwise (· ≤ ·) (blocksFrom b cs) := by
  intro cs
  induction cs with
  | nil => intro b; simp [blocksFrom]
  | cons c cs ih =>
    intro b
    simp only [blocksFrom]
    rw [List.pairwise_append]
    refine ⟨?_, ih (b + 1), ?_⟩
    · rw [List.pairwise_replicate]
      exact Or.inr (le_refl b)
    · intro x hx y hy
      have hxb := List.eq_of_mem_replicate hx
      have hyb := blocksFrom_mem_le cs (b + 1) y hy
      omega

lemma blocksFrom_inc :
    ∀ (cs : List Nat) (b j cj : Nat), cs[j]? = some cj →
      (∀ i x, cs[i]? = some x → j < i → x = 0) →
      blocksFrom b (cs.set j (cj + 1)) = blocksFrom b cs ++ [b + j] := by
  intro cs
  induction cs with
  | nil => intro b j cj h _; simp at h
  | cons c cs ih =>
    intro b j cj hget hzero
    cases j with
    | zero =>
      simp only [List.getElem?_cons_zero, Option.some.injEq] at hget
      subst hget
      have hz : blocksFrom (b + 1) cs = [] := by
        apply blocksFrom_all_zero
        intro x hx
        obtain ⟨i, hi⟩ := List.mem_iff_getElem?.mp hx
        exact hzero (i + 1) x (by simpa using hi) (by omega)
      show List.replicate (c + 1) b ++ blocksFrom (b + 1) cs =
        (List.replicate c b ++ blocksFrom (b + 1) cs) ++ [b + 0]
      rw [hz]
      simp only [List.append_nil]
      rw [List.replicate_succ' c b, Nat.add_zero]
    | succ j =>
      simp only [List.getElem?_cons_succ] at hget
      simp only [List.set_cons_succ, blocksFrom]
      rw [ih (b + 1) j cj hget
        (fun i x hx hj => hzero (i + 1) x (by simpa using hx) (by omega))]
      rw [← List.append_assoc]
      have harith : b + 1 + j = b + (j + 1) := by omega
      rw [harith]

/-- Invariant of the serialized-calls machine: call records mirror the body
durations, and there is a frontier call such that every earlier call has
finished, every later call has not started, and the trace is exactly the
concatenation of the already-run step blocks in call order. -/
def InvS (durs : List Nat) (st : SyncSt) : Prop :=
  st.calls.length = durs.length ∧
  (∀ (i : Nat) (c : SyncCall), st.calls[i]? = some c →
    durs[i]? = some c.total ∧ c.stepsLeft ≤ c.total) ∧
  ∃ f, (∀ (i : Nat) (c : SyncCall),
      st.calls[i]? = some c → i < f → c.stepsLeft = 0) ∧
    (∀ (i : Nat) (c : SyncCall),
      st.calls[i]? = some c → f < i → c.stepsLeft = c.total) ∧
    st.trace = blocks (st.calls.map consumedSteps)

lemma syncStep_inv (durs : List Nat) (hd : ∀ d ∈ durs, 0 < d)
    (st st' : SyncSt) (k : Nat) (hinv : InvS durs st)
    (hstep : syncStep st k = some st') : InvS durs st' := by
  obtain ⟨hlen, hfields, f, hbelow, habove, htrace⟩ := hinv
  unfold syncStep at hstep
  cases hgk : st.calls[k]? with
  | none => rw [hgk] at hstep; simp at hstep
  | some c =>
    rw [hgk] at hstep
    dsimp only at hstep
    by_cases hcond : syncReady st.calls k = true ∧ 0 < c.stepsLeft
    · rw [if_pos hcond] at hstep
      obtain ⟨hready, hpos⟩ := hcond
      have hst' : st' =
          ⟨st.calls.set k { c with stepsLeft := c.stepsLeft - 1 },
            st.trace ++ [k]⟩ := by
        injection hstep with h
        exact h.symm
      subst hst'
      have hk : k < st.calls.length := (List.getElem?_eq_some_iff.mp hgk).1
      have hkf : f ≤ k := by
        by_contra h
        have := hbelow k c hgk (by omega)
        omega
      have hkf2 : k = f ∨ k = f + 1 := by
        rcases eq_or_lt_of_le hkf with h | h
        · exact Or.inl h.symm
        · right
          cases k with
          | zero => omega
          | succ j =>
            unfold syncReady at hready
            dsimp only at hready
            cases hgj : st.calls[j]? with
            | none => rw [hgj] at hready; simp at hready
            | some cj =>
              rw [hgj] at hready
              simp only [decide_eq_true_eq] at hready
              have hjf : f ≤ j := by omega
              rcases eq_or_lt_of_le hjf with hjeq | hjlt
              · omega
              · exfalso
                have h1 := habove j cj hgj hjlt
                have h2 := (hfields j cj hgj).1
                have hmem : cj.total ∈ durs := List.getElem?_mem h2
                have := hd _ hmem
                omega
      have hprev : ∀ i ci, st.calls[i]? = some ci → i < k →
          ci.stepsLeft = 0 := by
        intro i ci hgi hik
        by_cases hif : i < f
        · exact hbelow i ci hgi hif
        · have hk2 : k = f + 1 := by rcases hkf2 with h | h <;> omega
          have hif2 : i = f := by omega
          rw [hk2] at hready
          unfold syncReady at hready
          dsimp only at hready
          cases hgf : st.calls[f]? with
          | none => rw [hgf] at hready; simp at hready
          | some cf =>
            rw [hgf] at hready
            simp only [decide_eq_true_eq] at hready
            rw [hif2] at hgi
            rw [hgi] at hgf
            injection hgf with hgf
            rw [← hgf] at hready
            exact hready
      refine ⟨by simp [hlen], ?_, k, ?_, ?_, ?_⟩
      · intro i ci hgi
        by_cases hik : i = k
        · subst hik
          rw [List.getElem?_set_self hk] at hgi
          injection hgi with hgi
          rw [← hgi]
          have hf := hfields i c hgk
          refine ⟨by simpa using hf.1, ?_⟩
          dsimp only
          omega
        · rw [List.getElem?_set_ne (fun h => hik h.symm)] at hgi
          exact hfields i ci hgi
      · intro i ci hgi hik
        have hne : k ≠ i := by omega
        rw [List.getElem?_set_ne hne] at hgi
        exact hprev i ci hgi hik
      · intro i ci hgi hik
        have hne : k ≠ i := by omega
        rw [List.getElem?_set_ne hne] at hgi
        exact habove i ci hgi (by omega)
      · simp only
        rw [htrace, List.map_set]
        have hcons : consumedSteps { c with stepsLeft := c.stepsLeft - 1 } =
            consumedSteps c + 1 := by
          unfold consumedSteps
          have := (hfields k c hgk).2
          dsimp only
          omega
        rw [hcons, blocks, blocks,
          blocksFrom_inc (st.calls.map consumedSteps) 0 k (consumedSteps c)
            (by rw [List.getElem?_map, hgk]; rfl)
            ?_]
        · rw [Nat.zero_add]
        · intro i x hgi hik
          rw [List.getElem?_map] at hgi
          cases hgi2 : st.calls[i]? with
          | none => rw [hgi2] at hgi; simp at hgi
          | some ci =>
            rw [hgi2] at hgi
            simp only [Option.map_some', Option.some.injEq] at hgi
            have huntouched : ci.stepsLeft = ci.total :=
              habove i ci hgi2 (by omega)
            rw [← hgi]
            unfold consumedSteps
            omega
    · rw [if_neg hcond] at hstep
      simp at hstep

lemma syncRun_inv (durs : List Nat) (hd : ∀ d ∈ durs, 0 < d) :
    ∀ (sched : List Nat) (st st' : SyncSt), InvS durs st →
      syncRun sched st = some st' → InvS durs st' := by
  intro sched
  induction sched with
  | nil =>
    intro st st' hinv h
    simp only [syncRun, Option.some.injEq] at h
    rw [← h]
    exact hinv
  | cons k ks ih =>
    intro st st' hinv h
    simp only [syncRun] at h
    cases hs : syncStep st k with
    | none => rw [hs] at h; simp at h
    | some st1 =>
      rw [hs] at h
      exact ih st1 st' (syncStep_inv durs hd st st1 k hinv hs) h

lemma syncInit_inv (durs : List Nat) : InvS durs (syncInit durs) := by
  refine ⟨by simp [syncInit], ?_, 0, ?_, ?_, ?_⟩
  · intro i c hget
    simp only [syncInit, List.getElem?_map] at hget
    cases hdi : durs[i]? with
    | none => rw [hdi] at hget; simp at hget
    | some d =>
      rw [hdi] at hget
      simp only [Option.map_some', Option.some.injEq] at hget
      subst hget
      exact ⟨rfl, le_refl d⟩
  · intro i c _ h
    omega
  · intro i c hget _
    simp only [syncInit, List.getElem?_map] at hget
    cases hdi : durs[i]? with
    | none => rw [hdi] at hget; simp at hget
    | some d =>
      rw [hdi] at hget
      simp only [Option.map_some', Option.some.injEq] at hget
      subst hget
      rfl
  · simp only [syncInit]
    symm
    apply blocksFrom_all_zero
    intro x hx
    obtain ⟨i, hi⟩ := List.mem_iff_getElem?.mp hx
    rw [List.getElem?_map, List.getElem?_map] at hi
    cases hdi : durs[i]? with
    | none => rw [hdi] at hi; simp at hi
    | some d =>
      rw [hdi] at hi
      simp only [Option.map_some', Option.some.injEq] at hi
      rw [← hi]
      unfold consumedSteps
      dsimp only
      omega

/-- C10: under the `syncPromise` chaining every scheduled execution of
concurrently issued `next()` calls is serialized: any run of the machine
yields a trace that is a concatenation of per-call step blocks in call
order (so it is monotone and two bodies never interleave), and a call's
body has begun only if its predecessor's promise has settled, i.e. the
predecessor ran its complete duration. -/
theorem claim_c10 (durs sched : List Nat) (st' : SyncSt)
    (hd : ∀ d ∈ durs, 0 < d)
    (hrun : syncRun sched (syncInit durs) = some st') :
    ∃ cs : List Nat, cs.length = durs.length ∧
      st'.trace = blocks cs ∧
      List.Pairwise (· ≤ ·) st'.trace ∧
      (∀ k x, cs[k + 1]? = some x → 0 < x → cs[k]? = durs[k]?) := by
  have hinv : InvS durs st' :=
    syncRun_inv durs hd sched (syncInit durs) st' (syncInit_inv durs) hrun
  obtain ⟨hlen, hfields, f, hbelow, habove, htrace⟩ := hinv
  refine ⟨st'.calls.map consumedSteps, by simp [hlen], htrace, ?_, ?_⟩
  · rw [htrace]
    exact blocksFrom_sorted _ 0
  · intro k x hgk1 hxpos
    rw [List.getElem?_map] at hgk1
    cases hg1 : st'.calls[k + 1]? with
    | none => rw [hg1] at hgk1; simp at hgk1
    | some c1 =>
      rw [hg1] at hgk1
      simp only [Option.map_some', Option.some.injEq] at hgk1
      have hstarted : c1.stepsLeft < c1.total := by
        rw [← hgk1] at hxpos
        unfold consumedSteps at hxpos
        omega
      have hk1f : k + 1 ≤ f := by
        by_contra h
        have := habove (k + 1) c1 hg1 (by omega)
        omega
      cases hgc : st'.calls[k]? with
      | none =>
        exfalso
        have h1 : k + 1 < st'.calls.length :=
          (List.getElem?_eq_some_iff.mp hg1).1
        have h2 := hgc
        rw [List.getElem?_eq_none_iff] at h2
        omega
      | some c0 =>
        have hdone : c0.stepsLeft = 0 := hbelow k c0 hgc (by omega)
        have hf := (hfields k c0 hgc).1
        rw [List.getElem?_map, hgc, hf]
        simp only [Option.map_some', Option.some.injEq]
        unfold consumedSteps
        omega

/-- Witness for C10: two guarded calls of two steps each, stepped in the
only valid schedule. -/
theorem claim_c10_witness :
    (∀ d ∈ ([2, 2] : List Nat), 0 < d) ∧
    syncRun [0, 0, 1, 1] (syncInit [2, 2]) =
      some ⟨[⟨2, 0⟩, ⟨2, 0⟩], [0, 0, 1, 1]⟩ ∧
    ∃ cs : List Nat, cs.length = ([2, 2] : List Nat).length ∧
      (⟨[⟨2, 0⟩, ⟨2, 0⟩], [0, 0, 1, 1]⟩ : SyncSt).trace = blocks cs ∧
      List.Pairwise (· ≤ ·)
        (⟨[⟨2, 0⟩, ⟨2, 0⟩], [0, 0, 1, 1]⟩ : SyncSt).trace ∧
      (∀ k x, cs[k + 1]? = some x → 0 < x →
        cs[k]? = ([2, 2] : List Nat)[k]?) :=
  ⟨by decide, by decide,
    claim_c10 [2, 2] [0, 0, 1, 1] ⟨[⟨2, 0⟩, ⟨2, 0⟩], [0, 0, 1, 1]⟩
      (by decide) (by decide)⟩
